import Mathlib

/-!
Verification development for the RhythmDNA audio-analysis pipeline.

Each definition below is a shallow embedding of a function of the repository,
translated from the JavaScript source; the file and symbol are named in the
doc comment of each definition.  JavaScript numbers are modelled as exact
rationals, JavaScript strings as Lean strings (character lists), absent or
null values as `Option.none`, and JavaScript Set objects (which preserve
insertion order) as duplicate-free lists.
-/

/-! JavaScript string primitives: trim, toLowerCase (ASCII range), and
character-level helpers used by several embedded functions. -/

/-- Characters removed by JS String.prototype.trim (ASCII whitespace). -/
def jsIsSpace (c : Char) : Bool :=
  c == ' ' || c == '\t' || c == '\n' || c == '\r' || c == '\x0b' || c == '\x0c'

/-- Drop trailing characters satisfying p (helper for trim). -/
def dropTrailing (p : Char → Bool) (l : List Char) : List Char :=
  (l.reverse.dropWhile p).reverse

/-- Character-level model of JS String.prototype.trim: remove leading and
trailing whitespace. -/
def trimChars (l : List Char) : List Char :=
  dropTrailing jsIsSpace (l.dropWhile jsIsSpace)

/-- Model of JS String.prototype.trim. -/
def jsTrim (s : String) : String := String.mk (trimChars s.data)

/-- Model of JS String.prototype.toLowerCase on one character (ASCII range:
uppercase letters A..Z, code points 65..90, are shifted by 32). -/
def jsLowerChar (c : Char) : Char :=
  if 65 ≤ c.toNat ∧ c.toNat ≤ 90 then Char.ofNat (c.toNat + 32) else c

/-- Model of JS String.prototype.toLowerCase (ASCII range). -/
def jsToLower (s : String) : String := String.mk (s.data.map jsLowerChar)

/-- Model of JS String.prototype.toUpperCase on one character (ASCII range). -/
def jsUpperChar (c : Char) : Char :=
  if 97 ≤ c.toNat ∧ c.toNat ≤ 122 then Char.ofNat (c.toNat - 32) else c

/-! Embedding of the instrument finalizer.

Source: the finalizeInstruments module variant that the analysis pipeline
requires (src/unnamed/part_001, lines 2101-2279) — the variant that
canonicalizes family-section tokens to the simple tokens "Brass",
"Woodwinds", "Strings" and applies the v1.2.0 orchestral-anchor check in
the Strings soft-guard.  Spec section 4.6 fixes this policy. -/

/-- Association-list lookup mirroring a JS object property read
(first matching key wins; keys of CANON_ALIASES are unique). -/
def aliasLookup : List (String × String) → String → Option String
  | [], _ => none
  | (k, v) :: rest, t => if t = k then some v else aliasLookup rest t

/-- CANON_ALIASES table of the finalizer (part_001 lines 2116-2131). -/
def CANON_ALIASES : List (String × String) :=
  [("Drum set", "Drum Kit (acoustic)"),
   ("Drums", "Drum Kit (acoustic)"),
   ("Electric organ", "Organ"),
   ("Hammond organ", "Organ"),
   ("Strings (section)", "Strings"),
   ("Strings", "Strings"),
   ("Brass (section)", "Brass"),
   ("Brass", "Brass"),
   ("Woodwinds (section)", "Woodwinds"),
   ("Woodwinds", "Woodwinds"),
   ("Woodwind", "Woodwinds"),
   ("Guitars", "Electric Guitar")]

/-- The finalizer's normalize: trim the label, then apply CANON_ALIASES
(part_001 lines 2133-2136; CANON_ALIASES values are all truthy, so the
JS fallback applies exactly when the key is absent). -/
def canonNormalize (label : String) : String :=
  match aliasLookup CANON_ALIASES (jsTrim label) with
  | some c => c
  | none => jsTrim label

/-- Stable dedup skipping falsy (empty) strings, mirroring the loop at
part_001 lines 2151-2159; seen is the set of already-pushed labels. -/
def dedupKeep (seen : List String) : List String → List String
  | [] => []
  | x :: xs =>
    if x = "" then dedupKeep seen xs
    else if x ∈ seen then dedupKeep seen xs
    else x :: dedupKeep (x :: seen) xs

/-- Set.delete on an insertion-ordered set modelled as a list. -/
def sdel (s : List String) (x : String) : List String :=
  s.filter (fun y => y ≠ x)

/-- Delete every member of xs (the for-loops over family member sets). -/
def sdelAll (s : List String) (xs : List String) : List String :=
  xs.foldl sdel s

/-- Set.add on an insertion-ordered set modelled as a list. -/
def sadd (s : List String) (x : String) : List String :=
  if x ∈ s then s else s ++ [x]

/-- BRASS_MEMBERS (part_001 lines 2163-2172). -/
def BRASS_MEMBERS : List String :=
  ["Trumpet", "Trombone", "French Horn", "Tuba", "Flugelhorn", "Cornet",
   "Trumpet (mute)", "Trumpet (muted)"]

/-- WOODWIND_MEMBERS (part_001 lines 2174-2184). -/
def WOODWIND_MEMBERS : List String :=
  ["Saxophone", "Alto Saxophone", "Tenor Saxophone", "Baritone Saxophone",
   "Flute", "Clarinet", "Oboe", "Bassoon", "Piccolo"]

/-- Brass handling (part_001 lines 2189-2205): if a brass member or "Brass"
is present, remove the members and the legacy section tag and ensure
canonical "Brass". -/
def brassStage (s : List String) : List String :=
  if (∃ m ∈ BRASS_MEMBERS, m ∈ s) ∨ "Brass" ∈ s then
    sadd (sdel (sdelAll s BRASS_MEMBERS) "Brass (section)") "Brass"
  else s

/-- Woodwinds handling (part_001 lines 2207-2224). -/
def woodStage (s : List String) : List String :=
  if (∃ m ∈ WOODWIND_MEMBERS, m ∈ s) ∨ "Woodwinds" ∈ s then
    sadd (sdel (sdel (sdelAll s WOODWIND_MEMBERS) "Woodwinds (section)") "Woodwind") "Woodwinds"
  else s

/-- Bowed instruments consulted by the Strings soft-guard (part_001 line 2232). -/
def BOWED_STRINGS : List String := ["Violin", "Viola", "Cello", "Double Bass"]

/-- Pad-like instruments consulted by the Strings soft-guard (part_001 line 2233). -/
def PAD_LIKE : List String := ["Organ", "Electric organ", "Hammond organ", "Keyboard", "Synth"]

/-- Strings soft-guard with the v1.2.0 orchestral-anchor check
(part_001 lines 2230-2239): drop "Strings" when no bowed instrument is
present, pads are present, and "Brass" is absent. -/
def stringsSoftGuard (s : List String) : List String :=
  if "Strings" ∈ s ∧ (¬ ∃ b ∈ BOWED_STRINGS, b ∈ s) ∧ (∃ q ∈ PAD_LIKE, q ∈ s) ∧ "Brass" ∉ s then
    sdel s "Strings"
  else s

/-- First assembly loop (part_001 lines 2247-2252): keep the original order
of out, emitting only survivors of S, tracking already-emitted labels. -/
def walkKeep (S : List String) : List String → List String → List String
  | _, [] => []
  | added, i :: rest =>
    if i ∈ S ∧ i ∉ added then i :: walkKeep S (i :: added) rest
    else walkKeep S added rest

/-- Family labels appended at the end of assembly (part_001 line 2254). -/
def FAMILY_TOKENS : List String := ["Brass", "Woodwinds", "Strings"]

/-- Second assembly loop (part_001 lines 2254-2258): append family tokens in
S that the first loop did not emit.  The three tokens are pairwise
distinct, so a filter over the already-emitted list is faithful. -/
def famAppend (S kept : List String) : List String :=
  FAMILY_TOKENS.filter (fun f => decide (f ∈ S ∧ f ∉ kept))

/-- The family-collapse and assembly stages of the finalizer applied to the
normalized, deduplicated out list (part_001 lines 2186-2260). -/
def assembleFamilies (out : List String) : List String :=
  let s1 := brassStage out
  let s2 := woodStage s1
  let S := stringsSoftGuard s2
  let kept := walkKeep S [] out
  kept ++ famAppend S kept

/-- finalizeInstruments (part_001 lines 2138-2261): normalize and dedup the
concatenated sources, collapse brass and woodwind members into family
tokens, apply the Strings soft-guard, and reassemble in stable order. -/
def finalizeInstruments (ensembleInstruments probeRescues additional : List String) : List String :=
  assembleFamilies
    (dedupKeep [] (((ensembleInstruments ++ probeRescues) ++ additional).map canonNormalize))

/-! Embedding of the library-store merge (src/unnamed/part_004,
app/db/jsondb.js): unionInto, the instrument-precedence selection inside
mergeTrack, and the creative.instrument output of mergeTrack. -/

/-- Creative sub-record fields referenced by mergeTrack's instrument merge. -/
structure CreativeFields where
  instrument : Option (List String)
  suggestedInstruments : Option (List String)

/-- The empty creative object used for a missing creative field
(JS: oldRec.creative or newRec.creative falsy gives an empty object). -/
def emptyCreative : CreativeFields := ⟨none, none⟩

/-- Track-record fields referenced by mergeTrack's instrument precedence
(part_004 lines 86-116): the two analysis locations, the two legacy root
locations, and the creative sub-record. -/
structure JsTrack where
  analysisFinalInstruments : Option (List String)
  analysisInstruments : Option (List String)
  finalInstruments : Option (List String)
  instruments : Option (List String)
  creative : Option CreativeFields

/-- toArray (part_004 lines 46-50) restricted to list-or-absent values:
absent and null give the empty list, an array gives itself. -/
def jsToArray (o : Option (List String)) : List String :=
  match o with
  | some l => l
  | none => []

/-- unionInto (part_004 lines 52-59): append each value not already present,
preserving the existing ordering first.  The JS seen set always equals the
membership of the accumulator, so a membership test on the accumulator is
faithful; String(x) is the identity on strings. -/
def unionInto (arr : List String) (values : List String) : List String :=
  values.foldl (fun acc v => if v ∈ acc then acc else acc ++ [v]) arr

/-- The JS test `Array.isArray(v) && v.length > 0` for an optional list. -/
def isNonEmptyArr (o : Option (List String)) : Bool :=
  match o with
  | some (_ :: _) => true
  | _ => false

/-- Instrument precedence selection inside mergeTrack (part_004 lines 86-116).
Priorities 1-5 require a non-empty array; priority 6 fires on any present
value (a JS array is always truthy), else the fallback is the empty array. -/
def instrumentsToMerge (newRec : JsTrack) : List String :=
  if isNonEmptyArr newRec.analysisFinalInstruments then jsToArray newRec.analysisFinalInstruments
  else if isNonEmptyArr newRec.analysisInstruments then jsToArray newRec.analysisInstruments
  else if isNonEmptyArr newRec.finalInstruments then jsToArray newRec.finalInstruments
  else if isNonEmptyArr newRec.instruments then jsToArray newRec.instruments
  else if isNonEmptyArr (newRec.creative.getD emptyCreative).suggestedInstruments then
    jsToArray (newRec.creative.getD emptyCreative).suggestedInstruments
  else if (newRec.creative.getD emptyCreative).instrument.isSome then
    jsToArray (newRec.creative.getD emptyCreative).instrument
  else []

/-- The creative.instrument field of mergeTrack's output (part_004 lines
124-127): the old list unioned with the precedence-selected list. -/
def mergeCreativeInstrument (oldRec newRec : JsTrack) : List String :=
  unionInto (jsToArray (oldRec.creative.getD emptyCreative).instrument) (instrumentsToMerge newRec)

/-- First non-empty list among the given optional sources, empty if none.
Written from the spec's words for the precedence claim. -/
def firstNonEmptyList : List (Option (List String)) → List String
  | [] => []
  | (some (x :: xs)) :: _ => x :: xs
  | _ :: rest => firstNonEmptyList rest

/-- Instrument precedence as the spec states it: the first non-empty source
in the fixed order analysis final instruments, analysis instruments, root
final instruments, root instruments, creative suggestedInstruments,
creative instrument. -/
def specInstrumentPick (newRec : JsTrack) : List String :=
  firstNonEmptyList
    [newRec.analysisFinalInstruments,
     newRec.analysisInstruments,
     newRec.finalInstruments,
     newRec.instruments,
     (newRec.creative.getD emptyCreative).suggestedInstruments,
     (newRec.creative.getD emptyCreative).instrument]

/-! Embedding of the track-key normalizer (src/unnamed/part_004 lines 10-15,
app/db/jsondb.js normalizeKey): Node path.normalize (POSIX), then replace
every backslash by a forward slash, then lowercase.  Node's POSIX
path.normalize is modelled character-exactly: split on slashes, drop empty
and dot segments, resolve dot-dot segments (popping a previous segment,
keeping dot-dot at the head of a relative path, dropping it at the root of
an absolute path), rejoin, and restore leading and trailing slashes. -/

/-- The global backslash-to-slash replacement on one character. -/
def replBackChar (c : Char) : Char := if c = '\\' then '/' else c

/-- Model of p.replace of every backslash by a forward slash. -/
def jsReplaceBackslashAll (s : String) : String := String.mk (s.data.map replBackChar)

/-- Split a character list on slash separators. -/
def splitSlash : List Char → List (List Char)
  | [] => [[]]
  | c :: cs =>
    match splitSlash cs with
    | [] => [[]]
    | seg :: rest => if c = '/' then [] :: seg :: rest else (c :: seg) :: rest

/-- Segments kept by Node's normalizeString: non-empty and not a single dot. -/
def goodSeg (seg : List Char) : Bool := decide (seg ≠ [] ∧ seg ≠ ['.'])

/-- Dot-dot resolution of Node's normalizeString.  On a dot-dot segment: pop
the previous segment when one exists and is not itself dot-dot; otherwise
keep the dot-dot for a relative path and drop it for an absolute one. -/
def resolveSegs (abs : Bool) (acc : List (List Char)) : List (List Char) → List (List Char)
  | [] => acc
  | seg :: rest =>
    if seg = ['.', '.'] then
      match acc.getLast? with
      | some lastSeg =>
        if lastSeg = ['.', '.'] then resolveSegs abs (if abs then acc else acc ++ [seg]) rest
        else resolveSegs abs acc.dropLast rest
      | none => resolveSegs abs (if abs then acc else acc ++ [seg]) rest
    else resolveSegs abs (acc ++ [seg]) rest

/-- Join segments with slashes. -/
def joinSegs : List (List Char) → List Char
  | [] => []
  | [seg] => seg
  | seg :: rest => seg ++ '/' :: joinSegs rest

/-- The resolved body of Node's normalizeString: split on slashes, keep the
good segments, resolve dot-dots, rejoin. -/
def normBody (l : List Char) : List Char :=
  joinSegs (resolveSegs (l.head? == some '/') [] ((splitSlash l).filter goodSeg))

/-- Character-level model of Node's POSIX path.normalize: an empty input
gives a dot; an empty resolved body gives the root, a dot-slash, or a dot;
otherwise the body with the leading and trailing slashes restored. -/
def normChars (l : List Char) : List Char :=
  if l = [] then ['.']
  else if normBody l = [] then
    (if l.head? == some '/' then ['/'] else if l.getLast? == some '/' then ['.', '/'] else ['.'])
  else
    ((if l.head? == some '/' then ['/'] else []) ++ normBody l ++
      (if l.getLast? == some '/' then ['/'] else []))

/-- Model of Node's path.normalize on POSIX. -/
def posixNormalize (s : String) : String := String.mk (normChars s.data)

/-- normalizeKey (part_004 lines 10-15): empty input gives the empty key;
otherwise path.normalize, then backslash replacement, then lowercase. -/
def normalizeKey (p : String) : String :=
  if p = "" then "" else jsToLower (jsReplaceBackslashAll (posixNormalize p))

/-! Embedding of the ID3 BPM parsing and override
(src/unnamed/part_001: parseId3BpmSafe at lines 582-597 and the override
plus alternative-tempo block of completeAnalysisInBackground at lines
1664-1681). -/

/-- The id3Tags.bpm value: a JS number, a JS string, absent (undefined or
null), or a value of another type. -/
inductive Id3BpmValue
  | num (q : ℚ)
  | str (s : String)
  | missing
  | other
deriving DecidableEq

/-- Numeric value of a digit run. -/
def digitsToNat (ds : List Char) : ℕ :=
  ds.foldl (fun acc c => acc * 10 + (c.toNat - 48)) 0

/-- Value of a fractional digit run. -/
def fracToRat (ds : List Char) : ℚ :=
  (digitsToNat ds : ℚ) / ((10 : ℚ) ^ ds.length)

/-- First match of the regex for digits optionally followed by a dot and
digits (part_001 line 591), as an exact rational: scan to the first digit,
read the integer part, and accept a fractional part only when at least one
digit follows the dot. -/
def firstDecimalMatch : List Char → Option ℚ
  | [] => none
  | c :: cs =>
    if c.isDigit then
      let ds := (c :: cs).takeWhile Char.isDigit
      let rest := (c :: cs).dropWhile Char.isDigit
      some (match rest with
        | '.' :: r2 =>
          let fs := r2.takeWhile Char.isDigit
          if fs = [] then (digitsToNat ds : ℚ) else (digitsToNat ds : ℚ) + fracToRat fs
        | _ => (digitsToNat ds : ℚ))
    else firstDecimalMatch cs

/-- parseId3BpmSafe (part_001 lines 582-597): a finite number or first
decimal match of a string, accepted when strictly between 0 and 400, then
rounded (Math.round rounds half toward positive infinity, as does round
on rationals). -/
def parseId3BpmSafe : Id3BpmValue → Option ℤ
  | .missing => none
  | .other => none
  | .num q => if 0 < q ∧ q < 400 then some (round q) else none
  | .str s =>
    match firstDecimalMatch s.data with
    | none => none
    | some q => if 0 < q ∧ q < 400 then some (round q) else none

/-- The BPM override block (part_001 lines 1664-1674): when the ID3 value
parses, replace the estimate and set the source to id3 only when the
estimate differs from the parsed value. -/
def applyId3Override (finalBpm : Option ℚ) (tempoSource : String) (id3Parsed : Option ℤ) :
    Option ℚ × String :=
  match id3Parsed with
  | none => (finalBpm, tempoSource)
  | some b => if finalBpm = some (b : ℚ) then (finalBpm, tempoSource) else (some (b : ℚ), "id3")

/-- Alternative tempos (part_001 lines 1676-1680): half and double of the
final BPM, rounded, each emitted only when it lies in the closed interval
from 50 to 200; a null BPM emits neither. -/
def altTempos (finalBpm : Option ℚ) : Option ℤ × Option ℤ :=
  match finalBpm with
  | none => (none, none)
  | some b =>
    let h := round (b * (1 / 2 : ℚ))
    let d := round (b * (2 : ℚ))
    ((if 50 ≤ h ∧ h ≤ 200 then some h else none),
     (if 50 ≤ d ∧ d ≤ 200 then some d else none))

/-! Embedding of the creative-confidence parsing (src/unnamed/part_001,
parseConfidence at lines 1413-1424 and the clamp at line 1440). -/

/-- The raw confidence value from the LLM: a number, a string, or another
type (object, array, null, undefined, boolean). -/
inductive JsConfidence
  | num (q : ℚ)
  | str (s : String)
  | other
deriving DecidableEq

/-- Replace the first percent sign, mirroring raw.replace of a single
percent occurrence. -/
def replaceFirstPercent : List Char → List Char
  | [] => []
  | c :: cs => if c = '%' then cs else c :: replaceFirstPercent cs

/-- Exponent digits of a parseFloat literal: an empty digit run leaves the
mantissa unscaled. -/
def expDigits (r2 : List Char) (neg : Bool) : ℚ :=
  let eds := r2.takeWhile Char.isDigit
  if eds = [] then 1
  else if neg then ((10 : ℚ) ^ digitsToNat eds)⁻¹ else (10 : ℚ) ^ digitsToNat eds

/-- Optional sign of the exponent part. -/
def expTail (r : List Char) : ℚ :=
  match r with
  | '+' :: r2 => expDigits r2 false
  | '-' :: r2 => expDigits r2 true
  | _ => expDigits r false

/-- Scale factor of an optional exponent part following the mantissa. -/
def expFactor (l : List Char) : ℚ :=
  match l with
  | 'e' :: r => expTail r
  | 'E' :: r => expTail r
  | _ => 1

/-- Model of JS parseFloat on a trimmed string: optional sign, then either
digits with an optional fraction or a bare fraction, with an optional
exponent; none models NaN. -/
def jsParseFloatChars (l : List Char) : Option ℚ :=
  let sgn : ℚ := match l with
    | '-' :: _ => -1
    | _ => 1
  let l1 : List Char := match l with
    | '+' :: r => r
    | '-' :: r => r
    | _ => l
  let ds := l1.takeWhile Char.isDigit
  let r1 := l1.dropWhile Char.isDigit
  match ds, r1 with
  | [], '.' :: r2 =>
    let fs := r2.takeWhile Char.isDigit
    if fs = [] then none
    else some (sgn * fracToRat fs * expFactor (r2.dropWhile Char.isDigit))
  | [], _ => none
  | _ :: _, '.' :: r2 =>
    let fs := r2.takeWhile Char.isDigit
    some (sgn * ((digitsToNat ds : ℚ) + fracToRat fs) * expFactor (r2.dropWhile Char.isDigit))
  | _ :: _, _ => some (sgn * (digitsToNat ds : ℚ) * expFactor r1)

/-- Model of JS parseFloat. -/
def jsParseFloat (s : String) : Option ℚ := jsParseFloatChars s.data

/-- parseConfidence (part_001 lines 1413-1424): a number is divided by 100
when above 1; a string is stripped of one percent sign, trimmed and
parsed, likewise divided by 100 when above 1; everything else defaults
to 0.7. -/
def parseConfidence : JsConfidence → ℚ
  | .num q => if 1 < q then q / 100 else q
  | .str s =>
    let cleaned := jsTrim (String.mk (replaceFirstPercent s.data))
    match jsParseFloat cleaned with
    | some q => if 1 < q then q / 100 else q
    | none => 7 / 10
  | .other => 7 / 10

/-- The clamp applied when storing confidence (part_001 line 1440). -/
def clampConfidence (q : ℚ) : ℚ := min 1 (max 0 q)

/-- The stored confidence value of the validated creative record. -/
def storedConfidence (raw : JsConfidence) : ℚ := clampConfidence (parseConfidence raw)

/-- Number parsing as the claim words it: halved when above 1. -/
def specHalveNumber (q : ℚ) : ℚ := if 1 < q then q / 2 else q

/-! Embedding of the mix-only rescue used by the live pipeline
(src/unnamed/part_000 lines 572-645, inside analyzeWithEnsemble, the
module that part_001 requires as ensemble_runner). -/

/-- Per-model statistics of the decision trace; a key absent from the JS
object reads as 0 through the or-zero coercion, so total functions with
default 0 are faithful. -/
structure ModelStats where
  mean_probs : String → ℚ
  pos_ratio : String → ℚ

/-- The per-model section of decision_trace consulted by the rescue. -/
structure DecisionTrace where
  panns : ModelStats
  yamnet : ModelStats

/-- The fixed candidate key set CORE (part_000 lines 585-590). -/
def RESCUE_CORE : List String :=
  ["acoustic_guitar", "electric_guitar", "bass_guitar", "drum_kit",
   "piano", "organ", "brass", "strings"]

/-- Combined mean probability of a candidate over both models. -/
def rescueMean (t : DecisionTrace) (k : String) : ℚ :=
  t.panns.mean_probs k + t.yamnet.mean_probs k

/-- Combined positive ratio of a candidate over both models. -/
def rescuePos (t : DecisionTrace) (k : String) : ℚ :=
  t.panns.pos_ratio k + t.yamnet.pos_ratio k

/-- The pass gate (part_000 line 604): combined mean at least 0.006 and
combined positive ratio at least 0.02, or panns positive ratio alone at
least 0.06. -/
def rescuePass (t : DecisionTrace) (k : String) : Bool :=
  decide ((6 / 1000 ≤ rescueMean t k ∧ 2 / 100 ≤ rescuePos t k) ∨ 6 / 100 ≤ t.panns.pos_ratio k)

/-- The ranking score (part_000 line 606). -/
def rescueScore (t : DecisionTrace) (k : String) : ℚ :=
  rescueMean t k * (7 / 10) + rescuePos t k * (3 / 10)

/-- Candidates that pass the gate, in CORE order, with their scores
(the push loop at part_000 lines 598-609). -/
def rescueCandidates (t : DecisionTrace) : List (String × ℚ) :=
  (RESCUE_CORE.filter (rescuePass t)).map (fun k => (k, rescueScore t k))

/-- Stable descending insertion by score: an element is placed after every
earlier element of greater or equal score, matching the stable JS sort
with comparator subtracting scores. -/
def insertDescBy {α : Type} (score : α → ℚ) (x : α) : List α → List α
  | [] => [x]
  | y :: ys => if score y < score x then x :: y :: ys else y :: insertDescBy score x ys

/-- Stable sort, descending by score. -/
def stableSortDescBy {α : Type} (score : α → ℚ) (l : List α) : List α :=
  l.foldl (fun acc x => insertDescBy score x acc) []

/-- Word character of the title-case fallback regex. -/
def isWordChar (c : Char) : Bool := c.isAlphanum || c == '_'

/-- Uppercase every word character at a word boundary (the fallback
title-casing of part_000 line 623). -/
def capBoundary (boundary : Bool) : List Char → List Char
  | [] => []
  | c :: cs =>
    (if boundary ∧ isWordChar c then jsUpperChar c else c) :: capBoundary (!(isWordChar c)) cs

/-- The pretty display-name mapping (part_000 lines 613-625); the default
branch replaces underscores by spaces and title-cases word starts. -/
def prettyRescueLabel (k : String) : String :=
  if k = "drum_kit" then "Drum Kit (acoustic)"
  else if k = "bass_guitar" then "Bass Guitar"
  else if k = "electric_guitar" then "Electric Guitar"
  else if k = "acoustic_guitar" then "Acoustic Guitar"
  else if k = "piano" then "Piano"
  else if k = "organ" then "Organ"
  else if k = "brass" then "Brass (section)"
  else if k = "strings" then "Strings (section)"
  else String.mk (capBoundary true ((k.data.map (fun c => if c = '_' then ' ' else c))))

/-- The picks emitted by the rescue (part_000 lines 611-627): sort the
passing candidates by score descending, keep at most 4, map to display
names. -/
def rescuePicks (t : DecisionTrace) : List String :=
  ((stableSortDescBy Prod.snd (rescueCandidates t)).take 4).map (fun c => prettyRescueLabel c.1)

/-- The rescue trigger and write-back (part_000 lines 572-633): the rescue
runs when the parsed instruments are empty and a decision trace exists,
and replaces the instruments only when it picked something. -/
def rescuedInstruments (parsedInstruments : List String) (trace : Option DecisionTrace) :
    List String :=
  match trace with
  | none => parsedInstruments
  | some t =>
    if parsedInstruments = [] then
      let picks := rescuePicks t
      if picks = [] then parsedInstruments else picks
    else parsedInstruments

/-- The rescue as the claim words it: candidates of the fixed set that pass
the threshold rule, ranked by the weighted score, at most 4 emitted,
mapped to display names. -/
def specMixOnlyRescue (t : DecisionTrace) : List String :=
  ((stableSortDescBy (rescueScore t) (RESCUE_CORE.filter (rescuePass t))).take 4).map prettyRescueLabel

/-! Embedding of the background phase control flow of
completeAnalysisInBackground (src/unnamed/part_001 lines 1629-1660).
In both branches of the mode switch the creative analysis is awaited to
completion before the instrumentation analysis is invoked, so each branch
produces the same deterministic per-track event order. -/

/-- Per-track phase events of the background completion handler. -/
inductive PhaseEvent
  | creativeStart
  | creativeDone
  | instrumentationStart
  | instrumentationDone
deriving DecidableEq, BEq

/-- The orchestration mode (part_001 line 25; CONCURRENT is the default). -/
inductive OrchestrationMode
  | SEQUENTIAL
  | CONCURRENT
deriving DecidableEq

/-- The per-track event order of completeAnalysisInBackground: in the
SEQUENTIAL branch (lines 1629-1643) and in the CONCURRENT branch (lines
1644-1660) alike, runCreativeAnalysis is awaited before
runInstrumentationAnalysis is called. -/
def backgroundPhaseTrace : OrchestrationMode → List PhaseEvent
  | .SEQUENTIAL =>
    [.creativeStart, .creativeDone, .instrumentationStart, .instrumentationDone]
  | .CONCURRENT =>
    [.creativeStart, .creativeDone, .instrumentationStart, .instrumentationDone]

/-! Helper lemmas. -/

/-- Unfolding lemma for the spec-side first-non-empty selection. -/
theorem firstNonEmptyList_cons (o : Option (List String)) (rest : List (Option (List String))) :
    firstNonEmptyList (o :: rest) =
      (if isNonEmptyArr o then jsToArray o else firstNonEmptyList rest) := by
  match o with
  | none => rfl
  | some [] => rfl
  | some (x :: xs) => rfl

/-- unionInto only ever appends to the existing list. -/
theorem unionInto_prefix (values arr : List String) : arr <+: unionInto arr values := by
  induction values generalizing arr with
  | nil => exact List.prefix_refl arr
  | cons v vs ih =>
    have step : unionInto arr (v :: vs) = unionInto (if v ∈ arr then arr else arr ++ [v]) vs := rfl
    rw [step]
    by_cases h : v ∈ arr
    · simpa [h] using ih (if v ∈ arr then arr else arr ++ [v])
    · have h1 : arr <+: arr ++ [v] := List.prefix_append arr [v]
      have h2 := ih (arr ++ [v])
      simpa [h] using h1.trans h2

/-- Mapping through the stable descending insertion commutes when the score
is preserved. -/
theorem insertDescBy_map {α β : Type} (f : α → β) (sβ : β → ℚ) (sα : α → ℚ)
    (hs : ∀ a, sβ (f a) = sα a) (x : α) (l : List α) :
    insertDescBy sβ (f x) (l.map f) = (insertDescBy sα x l).map f := by
  induction l with
  | nil => rfl
  | cons y ys ih =>
    simp only [List.map_cons, insertDescBy, hs]
    by_cases h : sα y < sα x
    · simp [h]
    · simp [h, ih]

/-- Mapping through the stable descending sort commutes when the score is
preserved. -/
theorem stableSortDescBy_map {α β : Type} (f : α → β) (sβ : β → ℚ) (sα : α → ℚ)
    (hs : ∀ a, sβ (f a) = sα a) (l : List α) :
    stableSortDescBy sβ (l.map f) = (stableSortDescBy sα l).map f := by
  have main : ∀ (l : List α) (acc : List α),
      List.foldl (fun a x => insertDescBy sβ x a) (acc.map f) (l.map f) =
        (List.foldl (fun a x => insertDescBy sα x a) acc l).map f := by
    intro l
    induction l with
    | nil => intro acc; rfl
    | cons y ys ih =>
      intro acc
      simp only [List.map_cons, List.foldl_cons]
      rw [insertDescBy_map f sβ sα hs y acc]
      exact ih (insertDescBy sα y acc)
  simpa using main l []

/-! Claim C1.  The claim asserts that in CONCURRENT mode Instrumentation
does not block on Creative.  In the source both branches of
completeAnalysisInBackground await runCreativeAnalysis before invoking
runInstrumentationAnalysis, so the claim fails; Creative happens-before
Instrumentation in both modes. -/

/-- Claim C1 (counterexample): in the CONCURRENT branch of
completeAnalysisInBackground the creative phase completes strictly before
the instrumentation phase starts, and the CONCURRENT event order is the
same as the SEQUENTIAL one — Instrumentation does block on Creative. -/
theorem concurrent_trace_instrumentation_after_creative :
    (backgroundPhaseTrace OrchestrationMode.CONCURRENT).indexOf PhaseEvent.creativeDone <
      (backgroundPhaseTrace OrchestrationMode.CONCURRENT).indexOf PhaseEvent.instrumentationStart ∧
    backgroundPhaseTrace OrchestrationMode.CONCURRENT =
      backgroundPhaseTrace OrchestrationMode.SEQUENTIAL := by
  exact ⟨by decide, by decide⟩

/-- Claim C1 (amended): for every orchestration mode, the per-track
creative phase completes before the instrumentation phase starts:
Instrumentation blocks on Creative in CONCURRENT mode just as in
SEQUENTIAL mode. -/
theorem creative_done_before_instrumentation_start :
    ∀ m : OrchestrationMode,
      (backgroundPhaseTrace m).indexOf PhaseEvent.creativeDone <
        (backgroundPhaseTrace m).indexOf PhaseEvent.instrumentationStart := by
  intro m
  cases m <;> decide

/-! Claim C3: the instrument-precedence selection of mergeTrack equals the
first non-empty source in the spec's fixed order. -/

/-- Claim C3: for every incoming record, the list mergeTrack merges into
creative.instrument is the first non-empty source in the precedence order
analysis final instruments, analysis instruments, root final instruments,
root instruments, creative suggestedInstruments, creative instrument. -/
theorem instrumentsToMerge_matches_precedence_spec :
    ∀ newRec : JsTrack, instrumentsToMerge newRec = specInstrumentPick newRec := by
  intro r
  unfold instrumentsToMerge specInstrumentPick
  rw [firstNonEmptyList_cons, firstNonEmptyList_cons, firstNonEmptyList_cons,
      firstNonEmptyList_cons, firstNonEmptyList_cons, firstNonEmptyList_cons]
  by_cases h1 : isNonEmptyArr r.analysisFinalInstruments
  · simp [h1]
  · simp only [h1, if_false, Bool.false_eq_true]
    by_cases h2 : isNonEmptyArr r.analysisInstruments
    · simp [h2]
    · simp only [h2, if_false, Bool.false_eq_true]
      by_cases h3 : isNonEmptyArr r.finalInstruments
      · simp [h3]
      · simp only [h3, if_false, Bool.false_eq_true]
        by_cases h4 : isNonEmptyArr r.instruments
        · simp [h4]
        · simp only [h4, if_false, Bool.false_eq_true]
          by_cases h5 : isNonEmptyArr (r.creative.getD emptyCreative).suggestedInstruments
          · simp [h5]
          · simp only [h5, if_false, Bool.false_eq_true]
            match hinst : (r.creative.getD emptyCreative).instrument with
            | none => simp [firstNonEmptyList, isNonEmptyArr, jsToArray]
            | some [] => simp [firstNonEmptyList, isNonEmptyArr, jsToArray]
            | some (x :: xs) => simp [firstNonEmptyList, isNonEmptyArr, jsToArray]

/-! Claim C9: the merge never removes previously stored
creative.instrument values. -/

/-- Claim C9: for every old and new record, the old creative.instrument
list is a prefix of the merged creative.instrument list (existing
ordering preserved first, new values appended), so every instrument
present before the upsert is still present after it. -/
theorem mergeTrack_preserves_old_creative_instruments :
    ∀ oldRec newRec : JsTrack,
      jsToArray (oldRec.creative.getD emptyCreative).instrument <+:
        mergeCreativeInstrument oldRec newRec ∧
      ∀ x ∈ jsToArray (oldRec.creative.getD emptyCreative).instrument,
        x ∈ mergeCreativeInstrument oldRec newRec := by
  intro oldRec newRec
  have hpre := unionInto_prefix (instrumentsToMerge newRec)
    (jsToArray (oldRec.creative.getD emptyCreative).instrument)
  exact ⟨hpre, fun x hx => hpre.subset hx⟩

/-! Claim C4: the soft-guard behavior at the two inputs named by the spec.
The first value matches the source; the second does not: the finalizer
preserves insertion order, so Strings is retained (thanks to the Brass
anchor) in its original position and the output is
Strings, Organ, Brass — not Brass, Strings, Organ. -/

/-- Claim C4 (counterexample): on the ensemble list Strings, Organ, Brass
the finalizer does not return the claimed list Brass, Strings, Organ. -/
theorem finalizeInstruments_anchor_order_counterexample :
    finalizeInstruments ["Strings", "Organ", "Brass"] [] [] ≠ ["Brass", "Strings", "Organ"] := by
  decide

/-- Claim C4 (amended): the input Strings, Organ finalizes to exactly
Organ (the soft-guard removes Strings), and the input Strings, Organ,
Brass finalizes to exactly Strings, Organ, Brass in that order (Strings
retained because Brass acts as an orchestral anchor; the finalizer keeps
first-seen order). -/
theorem finalizeInstruments_soft_guard_values :
    finalizeInstruments ["Strings", "Organ"] [] [] = ["Organ"] ∧
    finalizeInstruments ["Strings", "Organ", "Brass"] [] [] = ["Strings", "Organ", "Brass"] := by
  exact ⟨by decide, by decide⟩

/-! Claim C6: the ID3 override.  The bpm value is indeed replaced by the
parsed tag value, but tempo_source is set to id3 only when the estimate
differs from the tag: when they coincide the estimator's label is kept,
so the claim's clause regardless of the estimator's output fails. -/

/-- Claim C6 (counterexample): with estimator output 120 from the thirds
strategy and a TBPM tag parsing to 120, the persisted pair keeps
tempo_source thirds, not id3 (the bpm itself is 120 as claimed). -/
theorem id3_override_source_counterexample :
    (applyId3Override (some 120) "thirds" (parseId3BpmSafe (Id3BpmValue.num 120))).2 ≠ "id3" ∧
    (applyId3Override (some 120) "thirds" (parseId3BpmSafe (Id3BpmValue.num 120))).1 = some 120 := by
  have h : parseId3BpmSafe (Id3BpmValue.num 120) = some 120 := by
    simp only [parseId3BpmSafe]
    norm_num [round_eq]
  rw [h]
  refine ⟨?_, ?_⟩
  · simp [applyId3Override]
  · simp [applyId3Override]

/-- Claim C6 (amended): whenever the TBPM tag parses to an integer, the
persisted bpm equals that integer; tempo_source becomes id3 exactly when
the estimator's output differs from the tag value (otherwise the
estimator's source label is kept); and the half and double alternative
tempos are emitted exactly when the rounded values lie in the closed
interval from 50 to 200. -/
theorem id3_override_amended_spec (v : Id3BpmValue) (b : ℤ) (est : Option ℚ) (src : String)
    (h : parseId3BpmSafe v = some b) :
    (applyId3Override est src (parseId3BpmSafe v)).1 = some (b : ℚ) ∧
    (applyId3Override est src (parseId3BpmSafe v)).2 = (if est = some (b : ℚ) then src else "id3") ∧
    (altTempos (applyId3Override est src (parseId3BpmSafe v)).1).1 =
      (if 50 ≤ round ((b : ℚ) / 2) ∧ round ((b : ℚ) / 2) ≤ 200
        then some (round ((b : ℚ) / 2)) else none) ∧
    (altTempos (applyId3Override est src (parseId3BpmSafe v)).1).2 =
      (if 50 ≤ round ((b : ℚ) * 2) ∧ round ((b : ℚ) * 2) ≤ 200
        then some (round ((b : ℚ) * 2)) else none) := by
  rw [h]
  by_cases he : est = some (b : ℚ)
  · refine ⟨by simp [applyId3Override, he], by simp [applyId3Override, he], ?_, ?_⟩
    · simp [applyId3Override, he, altTempos, div_eq_mul_inv, one_div]
    · simp [applyId3Override, he, altTempos]
  · refine ⟨by simp [applyId3Override, he], by simp [applyId3Override, he], ?_, ?_⟩
    · simp [applyId3Override, he, altTempos, div_eq_mul_inv, one_div]
    · simp [applyId3Override, he, altTempos]

/-- Claim C6 witness: a WAV whose TBPM string is 148 bpm while the
estimator said 98 from thirds is persisted with bpm 148, source id3,
alternative half tempo 74, and no alternative double tempo. -/
theorem id3_override_amended_spec_witness :
    parseId3BpmSafe (Id3BpmValue.str "148 bpm") = some 148 ∧
    ((applyId3Override (some 98) "thirds" (parseId3BpmSafe (Id3BpmValue.str "148 bpm"))).1 =
        some ((148 : ℤ) : ℚ) ∧
      (applyId3Override (some 98) "thirds" (parseId3BpmSafe (Id3BpmValue.str "148 bpm"))).2 =
        (if (some 98 : Option ℚ) = some (((148 : ℤ) : ℚ)) then "thirds" else "id3") ∧
      (altTempos (applyId3Override (some 98) "thirds"
          (parseId3BpmSafe (Id3BpmValue.str "148 bpm"))).1).1 =
        (if 50 ≤ round (((148 : ℤ) : ℚ) / 2) ∧ round (((148 : ℤ) : ℚ) / 2) ≤ 200
          then some (round (((148 : ℤ) : ℚ) / 2)) else none) ∧
      (altTempos (applyId3Override (some 98) "thirds"
          (parseId3BpmSafe (Id3BpmValue.str "148 bpm"))).1).2 =
        (if 50 ≤ round (((148 : ℤ) : ℚ) * 2) ∧ round (((148 : ℤ) : ℚ) * 2) ≤ 200
          then some (round (((148 : ℤ) : ℚ) * 2)) else none)) := by
  have h : parseId3BpmSafe (Id3BpmValue.str "148 bpm") = some 148 := by
    have h1 : firstDecimalMatch "148 bpm".data = some (148 : ℚ) := by decide
    simp only [parseId3BpmSafe, h1]
    norm_num [round_eq]
  exact ⟨h, id3_override_amended_spec (Id3BpmValue.str "148 bpm") 148 (some 98) "thirds" h⟩

/-! Claim C8: confidence parsing.  A numeric confidence above 1 is divided
by 100 (a percentage reading), not halved as the claim states. -/

/-- Claim C8 (counterexample): the raw numeric confidence 85 is stored as
0.85; parsing by halving as the claim states it would store 1 after the
clamp, so the claim's halving clause is false. -/
theorem parseConfidence_percent_counterexample :
    storedConfidence (JsConfidence.num 85) = 85 / 100 ∧
    storedConfidence (JsConfidence.num 85) ≠ clampConfidence (specHalveNumber 85) := by
  have h1 : storedConfidence (JsConfidence.num 85) = 85 / 100 := by
    rw [storedConfidence, show parseConfidence (JsConfidence.num 85) = 85 / 100 from by
      norm_num [parseConfidence]]
    rw [clampConfidence]
    norm_num [max_def, min_def]
  have h2 : clampConfidence (specHalveNumber 85) = 1 := by
    rw [show specHalveNumber 85 = 85 / 2 from by norm_num [specHalveNumber]]
    rw [clampConfidence]
    norm_num [max_def, min_def]
  refine ⟨h1, ?_⟩
  rw [h1, h2]
  norm_num

/-- Claim C8 (amended): every stored confidence lies in the closed unit
interval, and a raw numeric confidence is divided by 100 when it exceeds
1 (and kept as is otherwise); strings are stripped of a percent sign and
parsed the same way. -/
theorem storedConfidence_amended_spec :
    (∀ raw : JsConfidence, 0 ≤ storedConfidence raw ∧ storedConfidence raw ≤ 1) ∧
    (∀ q : ℚ, parseConfidence (JsConfidence.num q) = if 1 < q then q / 100 else q) := by
  constructor
  · intro raw
    unfold storedConfidence clampConfidence
    exact ⟨le_min (by norm_num) (le_max_left 0 (parseConfidence raw)), min_le_left 1 _⟩
  · intro q
    rfl

/-! Claim C7: the mix-only rescue of the live ensemble runner. -/

/-- Claim C7: when the ensemble returns empty instruments, the rescue of
analyzeWithEnsemble emits exactly the display names of the passing
candidates from the fixed eight-element set, ranked by the weighted score
with weights 0.7 and 0.3, at most four of them; with no decision trace
nothing is emitted. -/
theorem mix_only_rescue_matches_spec :
    ∀ t : DecisionTrace,
      rescuedInstruments [] (some t) = specMixOnlyRescue t ∧
      (specMixOnlyRescue t).length ≤ 4 ∧
      rescuedInstruments [] none = ([] : List String) := by
  intro t
  have hpicks : rescuePicks t = specMixOnlyRescue t := by
    unfold rescuePicks specMixOnlyRescue rescueCandidates
    rw [stableSortDescBy_map (fun k => (k, rescueScore t k)) Prod.snd (rescueScore t)
      (fun a => rfl)]
    rw [← List.map_take, List.map_map]
    rfl
  refine ⟨?_, ?_, rfl⟩
  · show (if ([] : List String) = [] then
        (let picks := rescuePicks t; if picks = [] then [] else picks) else []) = specMixOnlyRescue t
    simp only [if_pos rfl]
    by_cases hp : rescuePicks t = []
    · simpa [hp] using hpicks.symm
    · simpa [hp] using hpicks
  · unfold specMixOnlyRescue
    calc (((stableSortDescBy (rescueScore t) (RESCUE_CORE.filter (rescuePass t))).take 4).map
          prettyRescueLabel).length
        = ((stableSortDescBy (rescueScore t) (RESCUE_CORE.filter (rescuePass t))).take 4).length :=
          List.length_map _ _
      _ ≤ 4 := by
          rw [List.length_take]
          exact min_le_left _ _

/-! Lemmas about the insertion-ordered set operations of the finalizer. -/

/-- Membership after a set delete. -/
theorem mem_sdel (s : List String) (y x : String) : x ∈ sdel s y ↔ x ∈ s ∧ x ≠ y := by
  simp [sdel]

/-- Membership after deleting a whole member list. -/
theorem mem_sdelAll (xs : List String) (s : List String) (x : String) :
    x ∈ sdelAll s xs ↔ x ∈ s ∧ x ∉ xs := by
  induction xs generalizing s with
  | nil => simp [sdelAll]
  | cons y ys ih =>
    have step : sdelAll s (y :: ys) = sdelAll (sdel s y) ys := rfl
    rw [step, ih, mem_sdel]
    constructor
    · rintro ⟨⟨hs, hy⟩, hys⟩
      exact ⟨hs, by simp [hy, hys]⟩
    · rintro ⟨hs, hmem⟩
      simp only [List.mem_cons, not_or] at hmem
      exact ⟨⟨hs, hmem.1⟩, hmem.2⟩

/-- Membership after a set add. -/
theorem mem_sadd (s : List String) (y x : String) : x ∈ sadd s y ↔ x ∈ s ∨ x = y := by
  by_cases h : y ∈ s
  · simp only [sadd, if_pos h]
    constructor
    · exact Or.inl
    · rintro (hx | rfl)
      · exact hx
      · exact h
  · simp [sadd, if_neg h]

/-- Deleting an absent element changes nothing. -/
theorem sdel_eq_self (s : List String) (y : String) (h : y ∉ s) : sdel s y = s := by
  rw [sdel, List.filter_eq_self]
  intro a ha
  simp only [ne_eq, decide_eq_true_eq]
  intro heq
  exact h (heq ▸ ha)

/-- Deleting absent elements changes nothing. -/
theorem sdelAll_eq_self (xs : List String) (s : List String) (h : ∀ y ∈ xs, y ∉ s) :
    sdelAll s xs = s := by
  induction xs generalizing s with
  | nil => rfl
  | cons y ys ih =>
    have step : sdelAll s (y :: ys) = sdelAll (sdel s y) ys := rfl
    rw [step, sdel_eq_self s y (h y (by simp))]
    exact ih s (fun z hz => h z (by simp [hz]))

/-- Adding a present element changes nothing. -/
theorem sadd_eq_self (s : List String) (y : String) (h : y ∈ s) : sadd s y = s := by
  simp [sadd, if_pos h]

/-! Lemmas about the dedup loop of the finalizer. -/

/-- Membership in the dedup output. -/
theorem mem_dedupKeep (l : List String) (seen : List String) (x : String) :
    x ∈ dedupKeep seen l ↔ x ∈ l ∧ x ∉ seen ∧ x ≠ "" := by
  induction l generalizing seen with
  | nil => simp [dedupKeep]
  | cons a t ih =>
    by_cases ha : a = ""
    · subst ha
      rw [show dedupKeep seen ("" :: t) = dedupKeep seen t from rfl, ih]
      constructor
      · rintro ⟨h1, h2, h3⟩; exact ⟨by simp [h1], h2, h3⟩
      · rintro ⟨h1, h2, h3⟩
        rcases List.mem_cons.mp h1 with h | h
        · exact absurd h h3
        · exact ⟨h, h2, h3⟩
    · by_cases hs : a ∈ seen
      · rw [show dedupKeep seen (a :: t) = dedupKeep seen t from by
          simp [dedupKeep, ha, hs], ih]
        constructor
        · rintro ⟨h1, h2, h3⟩; exact ⟨by simp [h1], h2, h3⟩
        · rintro ⟨h1, h2, h3⟩
          rcases List.mem_cons.mp h1 with h | h
          · subst h; exact absurd hs h2
          · exact ⟨h, h2, h3⟩
      · rw [show dedupKeep seen (a :: t) = a :: dedupKeep (a :: seen) t from by
          simp [dedupKeep, ha, hs]]
        simp only [List.mem_cons, ih]
        constructor
        · rintro (rfl | ⟨h1, h2, h3⟩)
          · exact ⟨Or.inl rfl, hs, ha⟩
          · simp only [List.mem_cons, not_or] at h2
            exact ⟨Or.inr h1, h2.2, h3⟩
        · rintro ⟨rfl | h1, h2, h3⟩
          · exact Or.inl rfl
          · by_cases hxa : x = a
            · exact Or.inl hxa
            · exact Or.inr ⟨h1, by simp [hxa, h2], h3⟩

/-- The dedup output has no duplicates. -/
theorem dedupKeep_nodup (l : List String) (seen : List String) : (dedupKeep seen l).Nodup := by
  induction l generalizing seen with
  | nil => simp [dedupKeep]
  | cons a t ih =>
    by_cases ha : a = ""
    · subst ha; exact ih seen
    · by_cases hs : a ∈ seen
      · rw [show dedupKeep seen (a :: t) = dedupKeep seen t from by simp [dedupKeep, ha, hs]]
        exact ih seen
      · rw [show dedupKeep seen (a :: t) = a :: dedupKeep (a :: seen) t from by
          simp [dedupKeep, ha, hs]]
        refine List.nodup_cons.mpr ⟨?_, ih (a :: seen)⟩
        intro hmem
        exact ((mem_dedupKeep t (a :: seen) a).mp hmem).2.1 (by simp)

/-- Deduping an already clean list is the identity. -/
theorem dedupKeep_eq_self (l : List String) (seen : List String) (hnd : l.Nodup)
    (h : ∀ x ∈ l, x ∉ seen ∧ x ≠ "") : dedupKeep seen l = l := by
  induction l generalizing seen with
  | nil => rfl
  | cons a t ih =>
    obtain ⟨hsa, hea⟩ := h a (by simp)
    rw [show dedupKeep seen (a :: t) = a :: dedupKeep (a :: seen) t from by
      simp [dedupKeep, hea, hsa]]
    have hat : a ∉ t := (List.nodup_cons.mp hnd).1
    refine congrArg (a :: ·) (ih (a :: seen) (List.nodup_cons.mp hnd).2 ?_)
    intro x hx
    obtain ⟨h1, h2⟩ := h x (by simp [hx])
    refine ⟨?_, h2⟩
    simp only [List.mem_cons, not_or]
    exact ⟨fun heq => hat (heq ▸ hx), h1⟩

/-! Lemmas about the assembly loops of the finalizer. -/

/-- On a duplicate-free list disjoint from the already-emitted labels, the
first assembly loop is a filter by survival. -/
theorem walkKeep_eq_filter (S : List String) (out : List String) (added : List String)
    (hnd : out.Nodup) (hdis : ∀ x ∈ out, x ∉ added) :
    walkKeep S added out = out.filter (fun i => decide (i ∈ S)) := by
  induction out generalizing added with
  | nil => rfl
  | cons i rest ih =>
    have hia : i ∉ added := hdis i (by simp)
    have hir : i ∉ rest := (List.nodup_cons.mp hnd).1
    by_cases hiS : i ∈ S
    · rw [show walkKeep S added (i :: rest) = i :: walkKeep S (i :: added) rest from by
        simp [walkKeep, hiS, hia]]
      rw [ih (i :: added) (List.nodup_cons.mp hnd).2 ?_]
      · simp [hiS]
      · intro x hx
        simp only [List.mem_cons, not_or]
        exact ⟨fun heq => hir (heq ▸ hx), hdis x (by simp [hx])⟩
    · rw [show walkKeep S added (i :: rest) = walkKeep S added rest from by
        simp [walkKeep, hiS]]
      rw [ih added (List.nodup_cons.mp hnd).2 (fun x hx => hdis x (by simp [hx]))]
      simp [hiS]

/-! Lemmas about trim and the alias normalization. -/

/-- Dropping a prefix by a predicate is idempotent. -/
theorem dropWhile_dropWhile_eq (p : Char → Bool) (l : List Char) :
    (l.dropWhile p).dropWhile p = l.dropWhile p := by
  induction l with
  | nil => rfl
  | cons a t ih =>
    by_cases h : p a
    · simp [List.dropWhile_cons, h, ih]
    · simp [List.dropWhile_cons, h]

/-- Dropping a trailing run is idempotent. -/
theorem dropTrailing_idem (p : Char → Bool) (l : List Char) :
    dropTrailing p (dropTrailing p l) = dropTrailing p l := by
  simp [dropTrailing, List.reverse_reverse, dropWhile_dropWhile_eq]

/-- Dropping a trailing run yields a prefix. -/
theorem dropTrailing_prefixOf (p : Char → Bool) (l : List Char) : dropTrailing p l <+: l := by
  have h : l.reverse.dropWhile p <:+ l.reverse := List.dropWhile_suffix p
  have h2 : (l.reverse.dropWhile p).reverse <+: l.reverse.reverse := by
    exact List.reverse_prefix.mpr h
  simpa [dropTrailing] using h2

/-- A prefix of a list with no leading run has no leading run either. -/
theorem dropWhile_eq_self_of_prefix (p : Char → Bool) (l m : List Char) (hpre : m <+: l)
    (hl : l.dropWhile p = l) : m.dropWhile p = m := by
  cases m with
  | nil => rfl
  | cons a t =>
    cases l with
    | nil =>
      obtain ⟨r, hr⟩ := hpre
      simp at hr
    | cons b u =>
      obtain ⟨r, hr⟩ := hpre
      have hab : a = b := by
        have := congrArg List.head? hr
        simpa using this
      by_cases hpb : p b
      · exfalso
        rw [List.dropWhile_cons, if_pos hpb] at hl
        have hlen : (u.dropWhile p).length ≤ u.length :=
          (List.dropWhile_suffix p).sublist.length_le
        rw [hl] at hlen
        simp at hlen
      · rw [List.dropWhile_cons, if_neg (by simp [hab, hpb])]

/-- The character-level trim is idempotent. -/
theorem trimChars_idem (l : List Char) : trimChars (trimChars l) = trimChars l := by
  unfold trimChars
  have h1 : (l.dropWhile jsIsSpace).dropWhile jsIsSpace = l.dropWhile jsIsSpace :=
    dropWhile_dropWhile_eq _ _
  have h2 : (dropTrailing jsIsSpace (l.dropWhile jsIsSpace)).dropWhile jsIsSpace =
      dropTrailing jsIsSpace (l.dropWhile jsIsSpace) :=
    dropWhile_eq_self_of_prefix _ _ _ (dropTrailing_prefixOf _ _) h1
  rw [h2, dropTrailing_idem]

/-- The string-level trim is idempotent, as JS trim is. -/
theorem jsTrim_idem (s : String) : jsTrim (jsTrim s) = jsTrim s := by
  show String.mk (trimChars (trimChars s.data)) = String.mk (trimChars s.data)
  rw [trimChars_idem]

/-- A successful alias lookup returns a table entry. -/
theorem aliasLookup_mem_of_eq_some (ps : List (String × String)) (t v : String)
    (h : aliasLookup ps t = some v) : (t, v) ∈ ps := by
  induction ps with
  | nil => simp [aliasLookup] at h
  | cons q rest ih =>
    obtain ⟨k, w⟩ := q
    by_cases hk : t = k
    · subst hk
      rw [show aliasLookup ((t, w) :: rest) t = some w from by simp [aliasLookup]] at h
      simp at h
      simp [h]
    · rw [show aliasLookup ((k, w) :: rest) t = aliasLookup rest t from by
        simp [aliasLookup, hk]] at h
      exact List.mem_cons_of_mem _ (ih h)

/-- A failed alias lookup means the key is absent from the table. -/
theorem aliasLookup_none_no_key (ps : List (String × String)) (t : String)
    (h : aliasLookup ps t = none) : ∀ q ∈ ps, q.1 ≠ t := by
  induction ps with
  | nil => simp
  | cons q rest ih =>
    obtain ⟨k, w⟩ := q
    by_cases hk : t = k
    · subst hk
      rw [show aliasLookup ((t, w) :: rest) t = some w from by simp [aliasLookup]] at h
      simp at h
    · rw [show aliasLookup ((k, w) :: rest) t = aliasLookup rest t from by
        simp [aliasLookup, hk]] at h
      intro q hq
      rcases List.mem_cons.mp hq with rfl | hq'
      · simpa using fun heq => hk heq.symm
      · exact ih h q hq'

/-- The alias normalization is idempotent. -/
theorem canonNormalize_idem (l : String) : canonNormalize (canonNormalize l) = canonNormalize l := by
  unfold canonNormalize
  cases hlook : aliasLookup CANON_ALIASES (jsTrim l) with
  | some c =>
    have hmem : (jsTrim l, c) ∈ CANON_ALIASES := aliasLookup_mem_of_eq_some _ _ _ hlook
    have hvals : ∀ q ∈ CANON_ALIASES, canonNormalize q.2 = q.2 := by decide
    have := hvals _ hmem
    simpa [canonNormalize] using this
  | none =>
    rw [jsTrim_idem, hlook]

/-- The alias normalization never outputs a key whose alias differs from it
(in particular never a legacy section or variant spelling). -/
theorem canonNormalize_not_badkey (l : String) (b : String)
    (hb : b ∈ (["Drum set", "Drums", "Electric organ", "Hammond organ", "Strings (section)",
      "Brass (section)", "Woodwinds (section)", "Woodwind", "Guitars"] : List String)) :
    canonNormalize l ≠ b := by
  unfold canonNormalize
  cases hlook : aliasLookup CANON_ALIASES (jsTrim l) with
  | some c =>
    have hmem : (jsTrim l, c) ∈ CANON_ALIASES := aliasLookup_mem_of_eq_some _ _ _ hlook
    have hvals : ∀ q ∈ CANON_ALIASES,
        q.2 ∉ (["Drum set", "Drums", "Electric organ", "Hammond organ", "Strings (section)",
          "Brass (section)", "Woodwinds (section)", "Woodwind", "Guitars"] : List String) := by
      decide
    intro heq
    replace heq : c = b := heq
    subst heq
    exact hvals _ hmem hb
  | none =>
    intro heq
    replace heq : jsTrim l = b := heq
    have hkeys : ∀ x ∈ (["Drum set", "Drums", "Electric organ", "Hammond organ",
        "Strings (section)", "Brass (section)", "Woodwinds (section)", "Woodwind",
        "Guitars"] : List String), ∃ q ∈ CANON_ALIASES, q.1 = x := by decide
    obtain ⟨q, hq, hq1⟩ := hkeys b hb
    exact aliasLookup_none_no_key _ _ hlook q hq (by rw [hq1, ← heq])

/-! Lemmas about the family-collapse stages. -/

/-- The brass stage only keeps elements or introduces "Brass". -/
theorem brassStage_subset_or (s : List String) (x : String) (hx : x ∈ brassStage s) :
    x ∈ s ∨ x = "Brass" := by
  unfold brassStage at hx
  split at hx
  · rcases (mem_sadd _ _ _).mp hx with h | h
    · exact Or.inl ((mem_sdelAll _ _ _).mp ((mem_sdel _ _ _).mp h).1).1
    · exact Or.inr h
  · exact Or.inl hx

/-- No brass member survives the brass stage. -/
theorem brassMember_not_mem_brassStage (s : List String) (m : String)
    (hm : m ∈ BRASS_MEMBERS) : m ∉ brassStage s := by
  intro hx
  unfold brassStage at hx
  split at hx
  · rcases (mem_sadd _ _ _).mp hx with h | h
    · exact ((mem_sdelAll _ _ _).mp ((mem_sdel _ _ _).mp h).1).2 hm
    · subst h
      have : "Brass" ∉ BRASS_MEMBERS := by decide
      exact this hm
  · next hcond =>
    exact hcond (Or.inl ⟨m, hm, hx⟩)

/-- The brass stage is the identity on a list with no brass member and no
legacy brass section tag. -/
theorem brassStage_eq_self (s : List String) (hmem : ∀ m ∈ BRASS_MEMBERS, m ∉ s)
    (hsec : "Brass (section)" ∉ s) : brassStage s = s := by
  unfold brassStage
  by_cases hc : (∃ m ∈ BRASS_MEMBERS, m ∈ s) ∨ "Brass" ∈ s
  · have hb : "Brass" ∈ s := by
      rcases hc with ⟨m, hm, hms⟩ | hb
      · exact absurd hms (hmem m hm)
      · exact hb
    rw [if_pos hc, sdelAll_eq_self _ _ hmem, sdel_eq_self _ _ hsec, sadd_eq_self _ _ hb]
  · rw [if_neg hc]

/-- The woodwind stage only keeps elements or introduces "Woodwinds". -/
theorem woodStage_subset_or (s : List String) (x : String) (hx : x ∈ woodStage s) :
    x ∈ s ∨ x = "Woodwinds" := by
  unfold woodStage at hx
  split at hx
  · rcases (mem_sadd _ _ _).mp hx with h | h
    · exact Or.inl ((mem_sdelAll _ _ _).mp ((mem_sdel _ _ _).mp ((mem_sdel _ _ _).mp h).1).1).1
    · exact Or.inr h
  · exact Or.inl hx

/-- No woodwind member survives the woodwind stage. -/
theorem woodMember_not_mem_woodStage (s : List String) (m : String)
    (hm : m ∈ WOODWIND_MEMBERS) : m ∉ woodStage s := by
  intro hx
  unfold woodStage at hx
  split at hx
  · rcases (mem_sadd _ _ _).mp hx with h | h
    · exact ((mem_sdelAll _ _ _).mp ((mem_sdel _ _ _).mp ((mem_sdel _ _ _).mp h).1).1).2 hm
    · subst h
      have : "Woodwinds" ∉ WOODWIND_MEMBERS := by decide
      exact this hm
  · next hcond =>
    exact hcond (Or.inl ⟨m, hm, hx⟩)

/-- The woodwind stage is the identity on a list with no woodwind member
and no legacy section or singular spelling. -/
theorem woodStage_eq_self (s : List String) (hmem : ∀ m ∈ WOODWIND_MEMBERS, m ∉ s)
    (hsec : "Woodwinds (section)" ∉ s) (hsing : "Woodwind" ∉ s) : woodStage s = s := by
  unfold woodStage
  by_cases hc : (∃ m ∈ WOODWIND_MEMBERS, m ∈ s) ∨ "Woodwinds" ∈ s
  · have hw : "Woodwinds" ∈ s := by
      rcases hc with ⟨m, hm, hms⟩ | hw
      · exact absurd hms (hmem m hm)
      · exact hw
    rw [if_pos hc, sdelAll_eq_self _ _ hmem, sdel_eq_self _ _ hsec, sdel_eq_self _ _ hsing,
      sadd_eq_self _ _ hw]
  · rw [if_neg hc]

/-- The soft-guard never adds elements. -/
theorem stringsSoftGuard_subset (s : List String) (x : String)
    (hx : x ∈ stringsSoftGuard s) : x ∈ s := by
  unfold stringsSoftGuard at hx
  split at hx
  · exact ((mem_sdel _ _ _).mp hx).1
  · exact hx

/-- If "Strings" survives the soft-guard, the guard did not fire: the list
is unchanged and the guard condition is false. -/
theorem stringsSoftGuard_keep (s : List String) (hx : "Strings" ∈ stringsSoftGuard s) :
    stringsSoftGuard s = s ∧
      ¬("Strings" ∈ s ∧ (¬ ∃ b ∈ BOWED_STRINGS, b ∈ s) ∧ (∃ q ∈ PAD_LIKE, q ∈ s) ∧
        "Brass" ∉ s) := by
  by_cases hc : "Strings" ∈ s ∧ (¬ ∃ b ∈ BOWED_STRINGS, b ∈ s) ∧ (∃ q ∈ PAD_LIKE, q ∈ s) ∧
      "Brass" ∉ s
  · exfalso
    unfold stringsSoftGuard at hx
    rw [if_pos hc] at hx
    exact ((mem_sdel _ _ _).mp hx).2 rfl
  · exact ⟨by rw [stringsSoftGuard, if_neg hc], hc⟩

/-- Elements of the post-guard set come from the out list or are one of the
two synthesized family tokens. -/
theorem guardSet_subset_or (out : List String) (x : String)
    (hx : x ∈ stringsSoftGuard (woodStage (brassStage out))) :
    x ∈ out ∨ x = "Brass" ∨ x = "Woodwinds" := by
  rcases woodStage_subset_or _ _ (stringsSoftGuard_subset _ _ hx) with h | h
  · rcases brassStage_subset_or _ _ h with h2 | h2
    · exact Or.inl h2
    · exact Or.inr (Or.inl h2)
  · exact Or.inr (Or.inr h)

/-- Membership in the assembled final list agrees with membership in the
post-guard set. -/
theorem mem_assembleFamilies_iff (out : List String) (hnd : out.Nodup) (w : String) :
    w ∈ assembleFamilies out ↔ w ∈ stringsSoftGuard (woodStage (brassStage out)) := by
  unfold assembleFamilies
  simp only []
  rw [walkKeep_eq_filter _ _ _ hnd (by simp)]
  constructor
  · intro hw
    rcases List.mem_append.mp hw with h | h
    · exact of_decide_eq_true (List.mem_filter.mp h).2
    · exact (of_decide_eq_true (List.mem_filter.mp h).2).1
  · intro hw
    by_cases hout : w ∈ out
    · refine List.mem_append.mpr (Or.inl ?_)
      exact List.mem_filter.mpr ⟨hout, decide_eq_true hw⟩
    · have hfam : w ∈ FAMILY_TOKENS := by
        rcases guardSet_subset_or out w hw with h | h | h
        · exact absurd h hout
        · subst h; decide
        · subst h; decide
      refine List.mem_append.mpr (Or.inr ?_)
      refine List.mem_filter.mpr ⟨hfam, ?_⟩
      have hnk : w ∉ out.filter (fun i =>
          decide (i ∈ stringsSoftGuard (woodStage (brassStage out)))) := by
        intro hk
        exact hout (List.mem_of_mem_filter hk)
      exact decide_eq_true ⟨hw, hnk⟩

/-- The first assembly loop only emits elements of its input list. -/
theorem mem_walkKeep_subset (S : List String) (out : List String) (added : List String)
    (x : String) (hx : x ∈ walkKeep S added out) : x ∈ out := by
  induction out generalizing added with
  | nil => simp [walkKeep] at hx
  | cons i rest ih =>
    unfold walkKeep at hx
    split at hx
    · rcases List.mem_cons.mp hx with h | h
      · simp [h]
      · exact List.mem_cons_of_mem _ (ih (i :: added) h)
    · exact List.mem_cons_of_mem _ (ih added hx)

/-- Every element of the assembled final list comes from the out list or is
a family token. -/
theorem assembleFamilies_subset_or (out : List String) (w : String)
    (hw : w ∈ assembleFamilies out) : w ∈ out ∨ w ∈ FAMILY_TOKENS := by
  unfold assembleFamilies at hw
  simp only [] at hw
  rcases List.mem_append.mp hw with h | h
  · exact Or.inl (mem_walkKeep_subset _ _ _ _ h)
  · exact Or.inr (List.mem_of_mem_filter h)

/-- No brass member survives to the post-guard set. -/
theorem brassMember_not_in_guardSet (out : List String) (m : String)
    (hm : m ∈ BRASS_MEMBERS) : m ∉ stringsSoftGuard (woodStage (brassStage out)) := by
  intro hx
  rcases woodStage_subset_or _ _ (stringsSoftGuard_subset _ _ hx) with h | h
  · exact brassMember_not_mem_brassStage _ _ hm h
  · subst h
    have : "Woodwinds" ∉ BRASS_MEMBERS := by decide
    exact this hm

/-- No woodwind member survives to the post-guard set. -/
theorem woodMember_not_in_guardSet (out : List String) (m : String)
    (hm : m ∈ WOODWIND_MEMBERS) : m ∉ stringsSoftGuard (woodStage (brassStage out)) := by
  intro hx
  exact woodMember_not_mem_woodStage _ _ hm (stringsSoftGuard_subset _ _ hx)

/-- The assembled final list is duplicate-free. -/
theorem assembleFamilies_nodup (out : List String) (hnd : out.Nodup) :
    (assembleFamilies out).Nodup := by
  unfold assembleFamilies
  simp only []
  rw [walkKeep_eq_filter _ _ _ hnd (by simp)]
  rw [List.nodup_append]
  refine ⟨hnd.filter _, (by decide : FAMILY_TOKENS.Nodup).filter _, ?_⟩
  intro a ha hafam
  have h2 := (List.mem_filter.mp hafam).2
  exact (of_decide_eq_true h2).2 ha

/-- The assembled final list never contains the empty string when the out
list does not. -/
theorem assembleFamilies_no_empty (out : List String) (hne : "" ∉ out) :
    "" ∉ assembleFamilies out := by
  intro hw
  rcases assembleFamilies_subset_or _ _ hw with h | h
  · exact hne h
  · revert h; decide

/-! Claim C10: the finalizer output has no duplicates and no empty
strings. -/

/-- Claim C10: for every ensemble, probe-rescue and additional input lists,
the finalizer's output list contains no duplicate entries and no empty
strings. -/
theorem finalizeInstruments_nodup_and_nonempty :
    ∀ x y z : List String,
      (finalizeInstruments x y z).Nodup ∧ "" ∉ finalizeInstruments x y z := by
  intro x y z
  have hnd : (dedupKeep [] (((x ++ y) ++ z).map canonNormalize)).Nodup := dedupKeep_nodup _ _
  have hne : "" ∉ dedupKeep [] (((x ++ y) ++ z).map canonNormalize) := by
    intro h
    exact ((mem_dedupKeep _ _ _).mp h).2.2 rfl
  exact ⟨assembleFamilies_nodup _ hnd, assembleFamilies_no_empty _ hne⟩

/-! Core lemmas for finalization idempotence: running the finalizer on an
assembled output (with empty extra sources) returns it unchanged. -/

/-- The assembly is the identity on a duplicate-free list fixed by all
three collapse stages. -/
theorem assembleFamilies_eq_self (l : List String) (hnd : l.Nodup)
    (hb : brassStage l = l) (hw : woodStage l = l) (hg : stringsSoftGuard l = l) :
    assembleFamilies l = l := by
  unfold assembleFamilies
  simp only []
  rw [hb, hw, hg, walkKeep_eq_filter _ _ _ hnd (by simp),
    List.filter_eq_self.mpr (fun a ha => decide_eq_true ha)]
  have hfam : famAppend l l = [] := by
    unfold famAppend
    rw [List.filter_eq_nil_iff]
    intro a ha
    simp
  rw [hfam, List.append_nil]

/-- Running finalizeInstruments on the assembly of a clean out list (the
shape every finalizer output has) is the identity. -/
theorem finalizeInstruments_fix_assembled (out : List String) (hnd : out.Nodup)
    (hne : "" ∉ out) (hfix : ∀ w ∈ out, canonNormalize w = w)
    (hbadB : "Brass (section)" ∉ out) (hbadWs : "Woodwinds (section)" ∉ out)
    (hbadW1 : "Woodwind" ∉ out) :
    finalizeInstruments (assembleFamilies out) [] [] = assembleFamilies out := by
  have hiff := mem_assembleFamilies_iff out hnd
  have fnodup : (assembleFamilies out).Nodup := assembleFamilies_nodup out hnd
  have fne : ∀ w ∈ assembleFamilies out, w ≠ "" := by
    intro w hw heq
    exact assembleFamilies_no_empty out hne (heq ▸ hw)
  have ffix : ∀ w ∈ assembleFamilies out, canonNormalize w = w := by
    intro w hw
    rcases assembleFamilies_subset_or _ _ hw with h | h
    · exact hfix w h
    · revert h
      have : ∀ f ∈ FAMILY_TOKENS, canonNormalize f = f := by decide
      exact fun h => this w h
  have fbadB : "Brass (section)" ∉ assembleFamilies out := by
    intro hw
    rcases assembleFamilies_subset_or _ _ hw with h | h
    · exact hbadB h
    · revert h; decide
  have fbadWs : "Woodwinds (section)" ∉ assembleFamilies out := by
    intro hw
    rcases assembleFamilies_subset_or _ _ hw with h | h
    · exact hbadWs h
    · revert h; decide
  have fbadW1 : "Woodwind" ∉ assembleFamilies out := by
    intro hw
    rcases assembleFamilies_subset_or _ _ hw with h | h
    · exact hbadW1 h
    · revert h; decide
  have fbrassM : ∀ m ∈ BRASS_MEMBERS, m ∉ assembleFamilies out := by
    intro m hm hw
    exact brassMember_not_in_guardSet out m hm ((hiff m).mp hw)
  have fwoodM : ∀ m ∈ WOODWIND_MEMBERS, m ∉ assembleFamilies out := by
    intro m hm hw
    exact woodMember_not_in_guardSet out m hm ((hiff m).mp hw)
  -- the second run's input reduces to the final list itself
  have hmapid : (assembleFamilies out).map canonNormalize = assembleFamilies out := by
    rw [List.map_congr_left ffix, List.map_id']
  have hdedupid : dedupKeep [] (assembleFamilies out) = assembleFamilies out :=
    dedupKeep_eq_self _ [] fnodup (fun w hw => ⟨by simp, fne w hw⟩)
  have hstep : finalizeInstruments (assembleFamilies out) [] [] =
      assembleFamilies (assembleFamilies out) := by
    unfold finalizeInstruments
    rw [List.append_nil, List.append_nil, hmapid, hdedupid]
  rw [hstep]
  -- the collapse stages are the identity on the final list
  have h1 : brassStage (assembleFamilies out) = assembleFamilies out :=
    brassStage_eq_self _ fbrassM fbadB
  have h2 : woodStage (assembleFamilies out) = assembleFamilies out :=
    woodStage_eq_self _ fwoodM fbadWs fbadW1
  have h3 : stringsSoftGuard (assembleFamilies out) = assembleFamilies out := by
    by_cases hS : "Strings" ∈ assembleFamilies out
    · obtain ⟨hSeq, hcond2⟩ := stringsSoftGuard_keep _ ((hiff "Strings").mp hS)
      have wIff : ∀ w, w ∈ assembleFamilies out ↔ w ∈ woodStage (brassStage out) := by
        intro w
        rw [hiff w, hSeq]
      rw [stringsSoftGuard, if_neg]
      rintro ⟨c1, c2, c3, c4⟩
      apply hcond2
      refine ⟨(wIff _).mp c1, ?_, ?_, ?_⟩
      · rintro ⟨b, hb, hbs⟩
        exact c2 ⟨b, hb, (wIff b).mpr hbs⟩
      · obtain ⟨q, hq, hqs⟩ := c3
        exact ⟨q, hq, (wIff q).mp hqs⟩
      · intro hbr
        exact c4 ((wIff _).mpr hbr)
    · rw [stringsSoftGuard, if_neg (fun hcond => hS hcond.1)]
  exact assembleFamilies_eq_self _ fnodup h1 h2 h3

/-! Claim C5: finalization idempotence. -/

/-- Claim C5: the instrument finalizer is idempotent: running finalization
again on its own output with empty probe-rescue and additional lists
returns the same list, for all inputs. -/
theorem finalizeInstruments_idempotent :
    ∀ x y z : List String,
      finalizeInstruments (finalizeInstruments x y z) [] [] = finalizeInstruments x y z := by
  intro x y z
  have hnd : (dedupKeep [] (((x ++ y) ++ z).map canonNormalize)).Nodup := dedupKeep_nodup _ _
  have hne : "" ∉ dedupKeep [] (((x ++ y) ++ z).map canonNormalize) := by
    intro h
    exact ((mem_dedupKeep _ _ _).mp h).2.2 rfl
  have himg : ∀ w ∈ dedupKeep [] (((x ++ y) ++ z).map canonNormalize),
      ∃ v, w = canonNormalize v := by
    intro w hw
    have h1 := ((mem_dedupKeep _ _ _).mp hw).1
    obtain ⟨v, _, hv⟩ := List.mem_map.mp h1
    exact ⟨v, hv.symm⟩
  have hfix : ∀ w ∈ dedupKeep [] (((x ++ y) ++ z).map canonNormalize),
      canonNormalize w = w := by
    intro w hw
    obtain ⟨v, rfl⟩ := himg w hw
    exact canonNormalize_idem v
  have hbadB : "Brass (section)" ∉ dedupKeep [] (((x ++ y) ++ z).map canonNormalize) := by
    intro hw
    obtain ⟨v, hv⟩ := himg _ hw
    exact canonNormalize_not_badkey v _ (by decide) hv.symm
  have hbadWs : "Woodwinds (section)" ∉ dedupKeep [] (((x ++ y) ++ z).map canonNormalize) := by
    intro hw
    obtain ⟨v, hv⟩ := himg _ hw
    exact canonNormalize_not_badkey v _ (by decide) hv.symm
  have hbadW1 : "Woodwind" ∉ dedupKeep [] (((x ++ y) ++ z).map canonNormalize) := by
    intro hw
    obtain ⟨v, hv⟩ := himg _ hw
    exact canonNormalize_not_badkey v _ (by decide) hv.symm
  exact finalizeInstruments_fix_assembled _ hnd hne hfix hbadB hbadWs hbadW1

/-! Lemmas about the ASCII lowercase map and the POSIX normalize model,
leading to the case-collapse property of the track key. -/

/-- The code point of a valid construction. -/
theorem char_toNat_ofNat_valid (n : Nat) (h : n.isValidChar) : (Char.ofNat n).toNat = n := by
  unfold Char.ofNat
  rw [dif_pos h]
  rfl

/-- Lowercasing an uppercase letter shifts its code point by 32. -/
theorem jsLowerChar_toNat_upper (c : Char) (h : 65 ≤ c.toNat ∧ c.toNat ≤ 90) :
    (jsLowerChar c).toNat = c.toNat + 32 := by
  unfold jsLowerChar
  rw [if_pos h]
  exact char_toNat_ofNat_valid _ (Or.inl (by omega))

/-- Characters agree exactly when their code points do. -/
theorem char_eq_iff_toNat (c d : Char) : c = d ↔ c.toNat = d.toNat := by
  constructor
  · intro h; rw [h]
  · intro h
    exact Char.ext (UInt32.ext h)

/-- Lowercasing reflects equality with any character that is neither an
uppercase nor a lowercase ASCII letter. -/
theorem jsLowerChar_eq_iff (c d : Char)
    (hd : d.toNat < 65 ∨ (90 < d.toNat ∧ d.toNat < 97) ∨ 122 < d.toNat) :
    jsLowerChar c = d ↔ c = d := by
  constructor
  · intro h
    by_cases hc : 65 ≤ c.toNat ∧ c.toNat ≤ 90
    · exfalso
      have h1 := jsLowerChar_toNat_upper c hc
      rw [h] at h1
      omega
    · rwa [jsLowerChar, if_neg hc] at h
  · intro h
    subst h
    rw [jsLowerChar, if_neg (by omega)]

/-- The lowercase map fixes everything outside the uppercase range. -/
theorem jsLowerChar_eq_self_of_not (c : Char) (h : ¬(65 ≤ c.toNat ∧ c.toNat ≤ 90)) :
    jsLowerChar c = c := by
  rw [jsLowerChar, if_neg h]

/-- The ASCII lowercase map is idempotent. -/
theorem jsLowerChar_idem (c : Char) : jsLowerChar (jsLowerChar c) = jsLowerChar c := by
  by_cases hc : 65 ≤ c.toNat ∧ c.toNat ≤ 90
  · have h1 := jsLowerChar_toNat_upper c hc
    exact jsLowerChar_eq_self_of_not (jsLowerChar c) (by omega)
  · rw [jsLowerChar_eq_self_of_not c hc]
    exact jsLowerChar_eq_self_of_not c hc

/-- Lowercasing a non-backslash gives a non-backslash and conversely. -/
theorem jsLowerChar_backslash_iff (c : Char) : jsLowerChar c = '\\' ↔ c = '\\' :=
  jsLowerChar_eq_iff c '\\' (by decide)

/-- Lowercasing reflects the slash. -/
theorem jsLowerChar_slash_iff (c : Char) : jsLowerChar c = '/' ↔ c = '/' :=
  jsLowerChar_eq_iff c '/' (by decide)

/-- Lowercasing reflects the dot. -/
theorem jsLowerChar_dot_iff (c : Char) : jsLowerChar c = '.' ↔ c = '.' :=
  jsLowerChar_eq_iff c '.' (by decide)

/-- Lowercase commutes with the backslash replacement. -/
theorem lower_repl_comm (c : Char) :
    jsLowerChar (replBackChar (jsLowerChar c)) = jsLowerChar (replBackChar c) := by
  by_cases hc : c = '\\'
  · subst hc
    rw [show jsLowerChar '\\' = '\\' from by decide]
  · have h1 : jsLowerChar c ≠ '\\' := fun h => hc ((jsLowerChar_backslash_iff c).mp h)
    rw [replBackChar, if_neg h1, replBackChar, if_neg hc, jsLowerChar_idem]

/-- The slash split is never empty. -/
theorem splitSlash_ne_nil (l : List Char) : splitSlash l ≠ [] := by
  cases l with
  | nil => simp [splitSlash]
  | cons c cs =>
    unfold splitSlash
    cases splitSlash cs with
    | nil => simp
    | cons seg rest =>
      by_cases hc : c = '/' <;> simp [hc]

/-- Unfolding equation for the slash split. -/
theorem splitSlash_cons (c : Char) (cs : List Char) :
    splitSlash (c :: cs) =
      (match splitSlash cs with
        | [] => [[]]
        | seg :: rest => if c = '/' then [] :: seg :: rest else (c :: seg) :: rest) := rfl

/-- The slash split commutes with lowercasing. -/
theorem splitSlash_map (l : List Char) :
    splitSlash (l.map jsLowerChar) = (splitSlash l).map (List.map jsLowerChar) := by
  induction l with
  | nil => rfl
  | cons c cs ih =>
    cases h : splitSlash cs with
    | nil => exact absurd h (splitSlash_ne_nil cs)
    | cons seg rest =>
      rw [List.map_cons, splitSlash_cons, splitSlash_cons, ih, h]
      by_cases hc : c = '/'
      · subst hc
        rw [show jsLowerChar '/' = '/' from by decide]
        simp
      · have hfc : jsLowerChar c ≠ '/' := fun hf => hc ((jsLowerChar_slash_iff c).mp hf)
        simp [hc, hfc]

/-- The good-segment test is insensitive to lowercasing. -/
theorem goodSeg_map (seg : List Char) : goodSeg (seg.map jsLowerChar) = goodSeg seg := by
  unfold goodSeg
  rcases seg with _ | ⟨c, _ | ⟨c2, t⟩⟩
  · rfl
  · simp only [List.map_cons, List.map_nil]
    rw [decide_eq_decide]
    simp [List.cons.injEq, jsLowerChar_dot_iff]
  · simp

/-- Filtering good segments commutes with lowercasing. -/
theorem filter_goodSeg_map (ss : List (List Char)) :
    (ss.map (List.map jsLowerChar)).filter goodSeg =
      (ss.filter goodSeg).map (List.map jsLowerChar) := by
  induction ss with
  | nil => rfl
  | cons seg rest ih =>
    rw [List.map_cons, List.filter_cons, List.filter_cons, goodSeg_map]
    by_cases hg : goodSeg seg
    · simp [hg, ih]
    · simp [hg, ih]

/-- Lowercasing reflects the dot-dot segment. -/
theorem map_eq_dotdot_iff (seg : List Char) :
    seg.map jsLowerChar = ['.', '.'] ↔ seg = ['.', '.'] := by
  rcases seg with _ | ⟨c1, _ | ⟨c2, _ | ⟨c3, t⟩⟩⟩
  · simp
  · simp
  · simp only [List.map_cons, List.map_nil, List.cons.injEq, and_true]
    rw [jsLowerChar_dot_iff, jsLowerChar_dot_iff]
  · simp

/-- Unfolding equation for the dot-dot resolution. -/
theorem resolveSegs_cons (abs : Bool) (acc : List (List Char)) (seg : List Char)
    (rest : List (List Char)) :
    resolveSegs abs acc (seg :: rest) =
      (if seg = ['.', '.'] then
        (match acc.getLast? with
          | some lastSeg =>
            if lastSeg = ['.', '.'] then resolveSegs abs (if abs then acc else acc ++ [seg]) rest
            else resolveSegs abs acc.dropLast rest
          | none => resolveSegs abs (if abs then acc else acc ++ [seg]) rest)
      else resolveSegs abs (acc ++ [seg]) rest) := rfl

/-- The dot-dot resolution commutes with lowercasing. -/
theorem resolveSegs_map (abs : Bool) (segs : List (List Char)) (acc : List (List Char)) :
    resolveSegs abs (acc.map (List.map jsLowerChar)) (segs.map (List.map jsLowerChar)) =
      (resolveSegs abs acc segs).map (List.map jsLowerChar) := by
  have hdd : (['.', '.'] : List Char).map jsLowerChar = ['.', '.'] := by decide
  have hpush : ∀ (a : List (List Char)) (seg : List Char),
      a.map (List.map jsLowerChar) ++ [seg.map jsLowerChar] =
        (a ++ [seg]).map (List.map jsLowerChar) := by
    intro a seg
    simp
  induction segs generalizing acc with
  | nil => rfl
  | cons seg rest ih =>
    rw [List.map_cons, resolveSegs_cons, resolveSegs_cons]
    by_cases hd : seg = ['.', '.']
    · subst hd
      rw [hdd, if_pos rfl, if_pos rfl, List.getLast?_map]
      cases hl : acc.getLast? with
      | none =>
        simp only [Option.map_none']
        cases abs with
        | false =>
          simp only [Bool.false_eq_true, if_false]
          rw [show acc.map (List.map jsLowerChar) ++ [['.', '.']] =
            (acc ++ [['.', '.']]).map (List.map jsLowerChar) from by simp [hdd]]
          exact ih _
        | true =>
          simp only [if_pos rfl]
          exact ih acc
      | some lastSeg =>
        simp only [Option.map_some']
        by_cases hlast : lastSeg = ['.', '.']
        · rw [if_pos ((map_eq_dotdot_iff lastSeg).mpr hlast), if_pos hlast]
          cases abs with
          | false =>
            simp only [Bool.false_eq_true, if_false]
            rw [show acc.map (List.map jsLowerChar) ++ [['.', '.']] =
              (acc ++ [['.', '.']]).map (List.map jsLowerChar) from by simp [hdd]]
            exact ih _
          | true =>
            simp only [if_pos rfl]
            exact ih acc
        · rw [if_neg (fun h => hlast ((map_eq_dotdot_iff lastSeg).mp h)), if_neg hlast,
            ← List.map_dropLast]
          exact ih _
    · rw [if_neg (fun h => hd ((map_eq_dotdot_iff seg).mp h)), if_neg hd, hpush]
      exact ih _

/-- Unfolding equation for the segment join on two or more segments. -/
theorem joinSegs_cons₂ (a b : List Char) (t : List (List Char)) :
    joinSegs (a :: b :: t) = a ++ '/' :: joinSegs (b :: t) := rfl

/-- The segment join commutes with lowercasing. -/
theorem joinSegs_map (ss : List (List Char)) :
    joinSegs (ss.map (List.map jsLowerChar)) = (joinSegs ss).map jsLowerChar := by
  induction ss with
  | nil => rfl
  | cons seg rest ih =>
    cases rest with
    | nil => rfl
    | cons s2 t =>
      rw [List.map_cons, List.map_cons, joinSegs_cons₂, joinSegs_cons₂, ← List.map_cons,
        ih, List.map_append, List.map_cons]
      rw [show jsLowerChar '/' = '/' from by decide]

/-- The leading-slash flag is insensitive to lowercasing. -/
theorem head_slash_map (l : List Char) :
    ((l.map jsLowerChar).head? == some '/') = (l.head? == some '/') := by
  cases l with
  | nil => rfl
  | cons c t =>
    simp only [List.map_cons, List.head?_cons]
    by_cases hc : c = '/'
    · subst hc
      rw [show jsLowerChar '/' = '/' from by decide]
    · have hfc : jsLowerChar c ≠ '/' := fun hf => hc ((jsLowerChar_slash_iff c).mp hf)
      simp [hc, hfc]

/-- The trailing-slash flag is insensitive to lowercasing. -/
theorem getLast_slash_map (l : List Char) :
    ((l.map jsLowerChar).getLast? == some '/') = (l.getLast? == some '/') := by
  rw [List.getLast?_map]
  cases hl : l.getLast? with
  | none => rfl
  | some c =>
    simp only [Option.map_some']
    by_cases hc : c = '/'
    · subst hc
      rw [show jsLowerChar '/' = '/' from by decide]
    · have hfc : jsLowerChar c ≠ '/' := fun hf => hc ((jsLowerChar_slash_iff c).mp hf)
      simp [hc, hfc]

/-- The resolved body commutes with lowercasing. -/
theorem normBody_map (l : List Char) :
    normBody (l.map jsLowerChar) = (normBody l).map jsLowerChar := by
  unfold normBody
  rw [head_slash_map, splitSlash_map, filter_goodSeg_map]
  have h := resolveSegs_map (l.head? == some '/') ((splitSlash l).filter goodSeg) []
  rw [show (List.map (List.map jsLowerChar) ([] : List (List Char))) = [] from rfl] at h
  rw [h, joinSegs_map]

/-- Node's POSIX normalize commutes with lowercasing. -/
theorem normChars_map (l : List Char) :
    normChars (l.map jsLowerChar) = (normChars l).map jsLowerChar := by
  have hsl : jsLowerChar '/' = '/' := by decide
  have hdot : jsLowerChar '.' = '.' := by decide
  by_cases hl : l = []
  · subst hl; rfl
  · have hml : l.map jsLowerChar ≠ [] := by simpa using hl
    rw [normChars, normChars, if_neg hl, if_neg hml, normBody_map, head_slash_map,
      getLast_slash_map]
    by_cases hb : normBody l = []
    · rw [hb]
      simp only [List.map_nil, if_pos rfl]
      cases habs : (l.head? == some '/') with
      | true => simp [hsl]
      | false =>
        simp only [Bool.false_eq_true, if_false]
        cases htr : (l.getLast? == some '/') with
        | true => simp [hsl, hdot]
        | false => simp [hdot]
    · have hmb : (normBody l).map jsLowerChar ≠ [] := by simpa using hb
      rw [if_neg hmb, if_neg hb, List.map_append, List.map_append]
      congr 1
      · cases habs : (l.head? == some '/') with
        | true => simp [hsl]
        | false => simp
      cases htr : (l.getLast? == some '/') with
      | true => simp [hsl]
      | false => simp

/-! Claim C2: the track-key normalizer.  The key is not plain
backslash-replacement plus lowercasing: normalizeKey first applies Node's
path.normalize, which collapses duplicate slashes and resolves dot
segments — and it resolves them differently before and after backslashes
are replaced, so the claimed equation fails.  What survives is
case-collapse: for backslash-free paths the key is insensitive to letter
case. -/

/-- Claim C2 (counterexample): the key of a path with backslashed dot-dot
segments differs from the key of its slash-lowercased form, and the key
of a path with a duplicate slash is not its slash-lowercased form. -/
theorem normalizeKey_slash_lower_counterexample :
    normalizeKey "A\\..\\B" ≠ normalizeKey (jsToLower (jsReplaceBackslashAll "A\\..\\B")) ∧
    normalizeKey "a//b" ≠ jsToLower (jsReplaceBackslashAll "a//b") := by
  exact ⟨by decide, by decide⟩

/-- Claim C2 (amended): for every backslash-free path p the equation holds:
key(p) = key(lowercase(replace(p))), so two backslash-free paths that
differ only in letter case collapse to the same key; the key itself is
lowercase(replace(path-normalize(p))), with Node's POSIX path.normalize
applied first. -/
theorem normalizeKey_backslash_free_lower_collapse (p : String)
    (h : ∀ c ∈ p.data, c ≠ '\\') :
    normalizeKey p = normalizeKey (jsToLower (jsReplaceBackslashAll p)) := by
  have hrepl : jsReplaceBackslashAll p = p := by
    show String.mk (p.data.map replBackChar) = p
    rw [List.map_congr_left (fun c hc => by rw [replBackChar, if_neg (h c hc)]), List.map_id']
  rw [hrepl]
  by_cases hp : p = ""
  · subst hp; rfl
  · have hpd : p.data ≠ [] := by
      intro hd
      exact hp (String.ext hd)
    have hlp : jsToLower p ≠ "" := by
      intro hl
      have h2 : (jsToLower p).data = [] := by rw [hl]
      have h3 : p.data.map jsLowerChar = [] := h2
      exact hpd (List.map_eq_nil_iff.mp h3)
    rw [normalizeKey, normalizeKey, if_neg hp, if_neg hlp]
    show String.mk (((normChars p.data).map replBackChar).map jsLowerChar) =
      String.mk (((normChars (p.data.map jsLowerChar)).map replBackChar).map jsLowerChar)
    rw [normChars_map]
    congr 1
    rw [List.map_map, List.map_map, List.map_map]
    refine List.map_congr_left (fun c hc => ?_)
    simp only [Function.comp]
    exact (lower_repl_comm c).symm

/-- Claim C2 witness: a concrete backslash-free path for which the key
equation holds. -/
theorem normalizeKey_backslash_free_lower_collapse_witness :
    (∀ c ∈ ("Music/Song.MP3" : String).data, c ≠ '\\') ∧
    normalizeKey "Music/Song.MP3" =
      normalizeKey (jsToLower (jsReplaceBackslashAll "Music/Song.MP3")) :=
  ⟨by decide, normalizeKey_backslash_free_lower_collapse _ (by decide)⟩
